import Mathlib

/-!
Verification development for the GoPro timelapse importer
(`gopro_importer.py`).

The program is shallowly embedded:

* Python strings are `List Nat` of character codes (ASCII for all the
  strings the program builds: digits are codes 48..57, `_` is 95,
  `G` 71, `J` 74, `P` 80, `.` 46, newline 10).
* Python `%d` / `%0kd` formatting and `str.__lt__` comparison are
  modelled by `decDigits`, `fmtPad` and `lexLt` below.
* Filesystem state (which paths exist, the marker file's bytes) is an
  explicit value threaded through the functions that the script drives
  through `os.path.exists`, `os.makedirs`, `open`.
* Fallible Python operations return `Except PyErr _` where the script
  can raise.
-/

deriving instance DecidableEq for Except

namespace GoproImporter

/-- Python exception classes that the embedded code can raise. -/
inductive PyErr where
  | attributeError
  | keyError
  | typeError
  | valueError
  deriving DecidableEq, Repr

/-! ## Decimal formatting of naturals (Python `%d` / `%0kd`) -/

/-- Code of the character `'0'`. -/
def zeroCode : Nat := 48

/-- `isDigitCode c` holds when `c` is the code of a decimal digit. -/
def isDigitCode (c : Nat) : Bool := zeroCode ≤ c && c ≤ zeroCode + 9

/-- Digit extraction with explicit fuel (`fuel ≥ n` always suffices);
structural recursion keeps the definition kernel-computable. -/
def decDigitsAux : Nat → Nat → List Nat
  | 0, n => [zeroCode + n]
  | fuel + 1, n =>
    if n < 10 then [zeroCode + n]
    else decDigitsAux fuel (n / 10) ++ [zeroCode + n % 10]

/-- The decimal digits of `n`, most significant first, as character
codes; the Python rendering `"%d" % n` for a non-negative `n`. -/
def decDigits (n : Nat) : List Nat := decDigitsAux n n

theorem decDigitsAux_congr : ∀ f1 : Nat, ∀ f2 n : Nat, n ≤ f1 → n ≤ f2 →
    decDigitsAux f1 n = decDigitsAux f2 n := by
  intro f1
  induction f1 with
  | zero =>
    intro f2 n h1 h2
    have : n = 0 := by omega
    subst this
    cases f2 with
    | zero => rfl
    | succ m => simp [decDigitsAux]
  | succ f ih =>
    intro f2 n h1 h2
    cases f2 with
    | zero =>
      have : n = 0 := by omega
      subst this
      simp [decDigitsAux]
    | succ m =>
      simp only [decDigitsAux]
      by_cases h10 : n < 10
      · simp [h10]
      · simp only [h10, if_false]
        have hd : n / 10 ≤ f := by
          have := Nat.div_lt_self (show 0 < n by omega) (show 1 < 10 by omega)
          omega
        have hd2 : n / 10 ≤ m := by
          have := Nat.div_lt_self (show 0 < n by omega) (show 1 < 10 by omega)
          omega
        rw [ih m (n / 10) hd hd2]

/-- The recursion `decDigits` satisfies. -/
theorem decDigits_eq (n : Nat) : decDigits n =
    if n < 10 then [zeroCode + n] else decDigits (n / 10) ++ [zeroCode + n % 10] := by
  by_cases h10 : n < 10
  · unfold decDigits
    cases hn : n with
    | zero => simp [decDigitsAux]
    | succ m =>
      subst hn
      simp [decDigitsAux, h10]
  · unfold decDigits
    cases hn : n with
    | zero => omega
    | succ m =>
      subst hn
      simp only [decDigitsAux, h10, if_false]
      have hd : (m + 1) / 10 ≤ m := by
        have := Nat.div_lt_self (show 0 < m + 1 by omega) (show 1 < 10 by omega)
        omega
      rw [decDigitsAux_congr m ((m + 1) / 10) ((m + 1) / 10) hd (Nat.le_refl _)]

/-- Python `"%0kd" % n` for non-negative `n`: the decimal digits of
`n`, left-padded with `'0'` up to width `k` (wider numbers are printed
in full). -/
def fmtPad (k n : Nat) : List Nat :=
  List.replicate (k - (decDigits n).length) zeroCode ++ decDigits n

/-- The low `k` decimal digits of `n` as character codes (exactly the
digits of `n` when `n < 10^k`).  Proof-friendly companion of
`fmtPad`. -/
def padNum : Nat → Nat → List Nat
  | 0, _ => []
  | k + 1, n => padNum k (n / 10) ++ [zeroCode + n % 10]

/-- Reads a digit-code string back as a number. -/
def valD (ds : List Nat) : Nat :=
  ds.foldl (fun a c => a * 10 + (c - zeroCode)) 0

theorem decDigits_ne_nil (n : Nat) : decDigits n ≠ [] := by
  rw [decDigits_eq]
  split
  · simp
  · simp

theorem decDigits_all_digit (n : Nat) : ∀ c ∈ decDigits n, isDigitCode c = true := by
  induction n using Nat.strong_induction_on with
  | _ n ih =>
    rw [decDigits_eq]
    split
    · intro c hc
      simp at hc
      simp [hc, isDigitCode, zeroCode]
      omega
    · intro c hc
      simp at hc
      rcases hc with h | h
      · exact ih (n / 10) (Nat.div_lt_self (by omega) (by omega)) c h
      · simp [h, isDigitCode, zeroCode]
        omega

theorem foldl_val_decDigits (n : Nat) :
    ∀ a : Nat, (decDigits n).foldl (fun a c => a * 10 + (c - zeroCode)) a
      = a * 10 ^ (decDigits n).length + n := by
  induction n using Nat.strong_induction_on with
  | _ n ih =>
    intro a
    rw [decDigits_eq]
    split
    · simp [zeroCode]
    · rename_i h
      rw [List.foldl_append, ih (n / 10) (Nat.div_lt_self (by omega) (by omega)) a]
      simp [zeroCode]
      rw [pow_succ]
      have hdm : 10 * (n / 10) + n % 10 = n := Nat.div_add_mod n 10
      nlinarith [hdm]

theorem valD_decDigits (n : Nat) : valD (decDigits n) = n := by
  unfold valD
  rw [foldl_val_decDigits]
  simp

theorem valD_fmtPad (k n : Nat) : valD (fmtPad k n) = n := by
  unfold valD fmtPad
  rw [List.foldl_append]
  have hz : ∀ j, List.foldl (fun a c => a * 10 + (c - zeroCode)) 0 (List.replicate j zeroCode) = 0 := by
    intro j
    induction j with
    | zero => simp
    | succ j ihj => simpa [List.replicate_succ] using ihj
  rw [hz]
  exact valD_decDigits n

theorem fmtPad_injective (k : Nat) {a b : Nat} (h : fmtPad k a = fmtPad k b) : a = b := by
  have := congrArg valD h
  rwa [valD_fmtPad, valD_fmtPad] at this

/-! ## Python string comparison (`str.__lt__`) -/

/-- Python `s < t` on strings: lexicographic comparison of character
codes, a strict prefix being smaller. -/
def lexLt : List Nat → List Nat → Bool
  | [], [] => false
  | [], _ :: _ => true
  | _ :: _, [] => false
  | a :: as, b :: bs =>
    if a < b then true else if b < a then false else lexLt as bs

theorem lexLt_irrefl (l : List Nat) : lexLt l l = false := by
  induction l with
  | nil => rfl
  | cons a as ih => simp [lexLt, ih]

theorem lexLt_trans : ∀ {a b c : List Nat}, lexLt a b = true → lexLt b c = true →
    lexLt a c = true := by
  intro a
  induction a with
  | nil =>
    intro b c h1 h2
    cases b with
    | nil => simp [lexLt] at h1
    | cons y ys =>
      cases c with
      | nil => simp [lexLt] at h2
      | cons z zs => simp [lexLt]
  | cons x xs ih =>
    intro b c h1 h2
    cases b with
    | nil => simp [lexLt] at h1
    | cons y ys =>
      cases c with
      | nil => simp [lexLt] at h2
      | cons z zs =>
        rcases Nat.lt_trichotomy x y with hxy | hxy | hxy
        · rcases Nat.lt_trichotomy y z with hyz | hyz | hyz
          · simp [lexLt, show x < z by omega]
          · subst hyz
            simp [lexLt, hxy]
          · simp [lexLt, show ¬y < z by omega, show z < y by omega] at h2
        · subst hxy
          rcases Nat.lt_trichotomy x z with hxz | hxz | hxz
          · simp [lexLt, hxz]
          · subst hxz
            simp [lexLt, Nat.lt_irrefl] at h1 h2 ⊢
            exact ih h1 h2
          · simp [lexLt, show ¬x < z by omega, hxz] at h2
        · simp [lexLt, show ¬x < y by omega, hxy] at h1

theorem lexLt_trichot (a b : List Nat) :
    lexLt a b = true ∨ a = b ∨ lexLt b a = true := by
  induction a generalizing b with
  | nil =>
    cases b with
    | nil => right; left; rfl
    | cons y ys => left; simp [lexLt]
  | cons x xs ih =>
    cases b with
    | nil => right; right; simp [lexLt]
    | cons y ys =>
      rcases Nat.lt_trichotomy x y with h | h | h
      · left; simp [lexLt, h]
      · subst h
        rcases ih ys with h' | h' | h'
        · left; simp [lexLt, h']
        · right; left; rw [h']
        · right; right; simp [lexLt, h']
      · right; right; simp [lexLt, h]

theorem lexLt_asymm {a b : List Nat} (h : lexLt a b = true) : lexLt b a = false := by
  by_contra hc
  have hba : lexLt b a = true := by
    cases hh : lexLt b a
    · exact absurd hh hc
    · rfl
  have := lexLt_trans h hba
  rw [lexLt_irrefl] at this
  exact Bool.noConfusion this

theorem lexLt_singleton (x y : Nat) : lexLt [x] [y] = decide (x < y) := by
  by_cases h : x < y
  · simp [lexLt, h]
  · by_cases h' : y < x
    · simp [lexLt, h, h']
    · simp [lexLt, h, h']

/-- Comparing two strings with the same (equal-length) structure
`xs ++ as` vs `ys ++ bs` compares `xs`/`ys` first. -/
theorem lexLt_append {xs ys : List Nat} (as bs : List Nat) (h : xs.length = ys.length) :
    lexLt (xs ++ as) (ys ++ bs) = true ↔
      (lexLt xs ys = true ∨ (xs = ys ∧ lexLt as bs = true)) := by
  induction xs generalizing ys with
  | nil =>
    cases ys with
    | nil => simp [lexLt]
    | cons y ys => simp at h
  | cons x xs ih =>
    cases ys with
    | nil => simp at h
    | cons y ys =>
      by_cases hxy : x < y
      · simp [lexLt, hxy]
      · by_cases hyx : y < x
        · simp [lexLt, hxy, hyx, show x ≠ y by omega]
        · have hxy' : x = y := by omega
          subst hxy'
          have hlen : xs.length = ys.length := by simpa using h
          simp [lexLt, Nat.lt_irrefl, ih hlen]

/-- The same-prefix special case. -/
theorem lexLt_append_same (p xs ys : List Nat) :
    lexLt (p ++ xs) (p ++ ys) = true ↔ lexLt xs ys = true := by
  rw [lexLt_append xs ys rfl]
  simp [lexLt_irrefl]

/-! ## A stable sort (CPython's `sorted`) -/

/-- Insert `x` before the first element `y` with `le x y`. -/
def orderedInsertB {α : Type} (le : α → α → Bool) (x : α) : List α → List α
  | [] => [x]
  | y :: ys => if le x y then x :: y :: ys else y :: orderedInsertB le x ys

/-- Insertion sort by the boolean preorder `le`.  CPython's `sorted`
is a stable sort by `le a b := not (key b < key a)`, and a stable
sort's output is uniquely determined by `le` and the input order, so
this models `sorted` exactly. -/
def stableSortB {α : Type} (le : α → α → Bool) : List α → List α
  | [] => []
  | x :: xs => orderedInsertB le x (stableSortB le xs)

theorem orderedInsertB_perm {α : Type} (le : α → α → Bool) (x : α) (l : List α) :
    List.Perm (orderedInsertB le x l) (x :: l) := by
  induction l with
  | nil => exact List.Perm.refl _
  | cons y ys ih =>
    unfold orderedInsertB
    by_cases h : le x y
    · simp [h]
    · simp only [h, if_neg, Bool.false_eq_true, not_false_eq_true]
      exact List.Perm.trans (List.Perm.cons y ih) (List.Perm.swap x y ys)

theorem stableSortB_perm {α : Type} (le : α → α → Bool) (l : List α) :
    List.Perm (stableSortB le l) l := by
  induction l with
  | nil => exact List.Perm.refl _
  | cons x xs ih =>
    exact List.Perm.trans (orderedInsertB_perm le x (stableSortB le xs)) (List.Perm.cons x ih)

theorem pairwise_orderedInsertB {α : Type} {le : α → α → Bool}
    (htrans : ∀ a b c, le a b = true → le b c = true → le a c = true)
    (htot : ∀ a b, le a b = true ∨ le b a = true) (x : α) :
    ∀ l, List.Pairwise (fun a b => le a b = true) l →
      List.Pairwise (fun a b => le a b = true) (orderedInsertB le x l) := by
  intro l
  induction l with
  | nil =>
    intro _
    simp [orderedInsertB]
  | cons y ys ih =>
    intro hp
    rw [List.pairwise_cons] at hp
    obtain ⟨hy, hys⟩ := hp
    unfold orderedInsertB
    by_cases h : le x y = true
    · simp only [h, if_true]
      rw [List.pairwise_cons]
      refine ⟨?_, List.pairwise_cons.mpr ⟨hy, hys⟩⟩
      intro b hb
      rcases List.mem_cons.mp hb with hb | hb
      · subst hb; exact h
      · exact htrans x y b h (hy b hb)
    · have hyx : le y x = true := (htot x y).resolve_left h
      simp only [h, if_neg, Bool.false_eq_true, not_false_eq_true]
      rw [List.pairwise_cons]
      refine ⟨?_, ih hys⟩
      intro b hb
      have hmem := (orderedInsertB_perm le x ys).mem_iff.mp hb
      rcases List.mem_cons.mp hmem with hb' | hb'
      · subst hb'; exact hyx
      · exact hy b hb'

theorem pairwise_stableSortB {α : Type} {le : α → α → Bool}
    (htrans : ∀ a b c, le a b = true → le b c = true → le a c = true)
    (htot : ∀ a b, le a b = true ∨ le b a = true) :
    ∀ l : List α, List.Pairwise (fun a b => le a b = true) (stableSortB le l) := by
  intro l
  induction l with
  | nil => simp [stableSortB]
  | cons x xs ih => exact pairwise_orderedInsertB htrans htot x _ ih

/-! ## `padNum` arithmetic -/

theorem padNum_length (k n : Nat) : (padNum k n).length = k := by
  induction k generalizing n with
  | zero => rfl
  | succ k ih => simp [padNum, ih]

/-- The low-digits decomposition `n % 10^(k+1) = (n/10 % 10^k)·10 + n%10`. -/
theorem mod_pow_succ_ten (k n : Nat) :
    (n / 10 % 10 ^ k) * 10 + n % 10 = n % (10 ^ k * 10) := by
  have hK : 0 < 10 ^ k := pow_pos (by omega) k
  have hq : n / 10 % 10 ^ k < 10 ^ k := Nat.mod_lt _ hK
  have hr : n % 10 < 10 := Nat.mod_lt _ (by omega)
  have e1 : 10 ^ k * (n / 10 / 10 ^ k) + n / 10 % 10 ^ k = n / 10 := Nat.div_add_mod _ _
  have hsplit : n = (10 * (n / 10 % 10 ^ k) + n % 10) + (n / 10 / 10 ^ k) * (10 ^ k * 10) := by
    calc n = 10 * (n / 10) + n % 10 := (Nat.div_add_mod n 10).symm
    _ = 10 * (10 ^ k * (n / 10 / 10 ^ k) + n / 10 % 10 ^ k) + n % 10 := by rw [e1]
    _ = (10 * (n / 10 % 10 ^ k) + n % 10) + (n / 10 / 10 ^ k) * (10 ^ k * 10) := by ring
  have hlt : 10 * (n / 10 % 10 ^ k) + n % 10 < 10 ^ k * 10 := by omega
  conv_rhs => rw [hsplit]
  rw [Nat.add_mul_mod_self_right, Nat.mod_eq_of_lt hlt]
  omega

theorem foldl_val_padNum (k : Nat) :
    ∀ a n : Nat, (padNum k n).foldl (fun a c => a * 10 + (c - zeroCode)) a
      = a * 10 ^ k + n % 10 ^ k := by
  induction k with
  | zero => intro a n; simp [padNum, Nat.mod_one]
  | succ k ih =>
    intro a n
    have hmod := mod_pow_succ_ten k n
    simp only [padNum, List.foldl_append, ih a (n / 10)]
    simp [zeroCode]
    rw [pow_succ, ← hmod]
    ring

theorem padNum_inj {k a b : Nat} (ha : a < 10 ^ k) (hb : b < 10 ^ k)
    (h : padNum k a = padNum k b) : a = b := by
  have := congrArg (List.foldl (fun a c => a * 10 + (c - zeroCode)) 0) h
  rw [foldl_val_padNum, foldl_val_padNum] at this
  rw [Nat.mod_eq_of_lt ha, Nat.mod_eq_of_lt hb] at this
  omega

/-- String comparison of equal-width zero-padded numbers is numeric
comparison. -/
theorem padNum_lt_iff {k a b : Nat} (ha : a < 10 ^ k) (hb : b < 10 ^ k) :
    lexLt (padNum k a) (padNum k b) = true ↔ a < b := by
  induction k generalizing a b with
  | zero =>
    interval_cases a
    interval_cases b
    simp [padNum, lexLt]
  | succ k ih =>
    have ha' : a / 10 < 10 ^ k := by
      rw [Nat.div_lt_iff_lt_mul (by omega)]
      rw [pow_succ] at ha
      omega
    have hb' : b / 10 < 10 ^ k := by
      rw [Nat.div_lt_iff_lt_mul (by omega)]
      rw [pow_succ] at hb
      omega
    simp only [padNum]
    rw [lexLt_append _ _ (by rw [padNum_length, padNum_length])]
    rw [lexLt_singleton]
    constructor
    · rintro (h' | ⟨heq, hd⟩)
      · have := (ih ha' hb').mp h'
        omega
      · have hde := padNum_inj ha' hb' heq
        have hm : a % 10 < b % 10 := by simpa using hd
        omega
    · intro h
      by_cases hd : a / 10 < b / 10
      · exact Or.inl ((ih ha' hb').mpr hd)
      · have hde : a / 10 = b / 10 := by omega
        have hm : a % 10 < b % 10 := by omega
        exact Or.inr ⟨by rw [hde], by simpa using hm⟩

/-- Concatenating zero-padded fields concatenates digit positions. -/
theorem padNum_append (j : Nat) : ∀ (k x y : Nat), y < 10 ^ k →
    padNum j x ++ padNum k y = padNum (j + k) (x * 10 ^ k + y) := by
  intro k
  induction k with
  | zero =>
    intro x y hy
    interval_cases y
    simp [padNum]
  | succ k ih =>
    intro x y hy
    have hy' : y / 10 < 10 ^ k := by
      rw [Nat.div_lt_iff_lt_mul (by omega)]
      rw [pow_succ] at hy
      omega
    have hdiv : (x * 10 ^ (k + 1) + y) / 10 = x * 10 ^ k + y / 10 := by
      have : x * 10 ^ (k + 1) + y = y + 10 * (x * 10 ^ k) := by ring
      rw [this, Nat.add_mul_div_left _ _ (by omega)]
      omega
    have hmod : (x * 10 ^ (k + 1) + y) % 10 = y % 10 := by
      have : x * 10 ^ (k + 1) + y = y + (x * 10 ^ k) * 10 := by ring
      rw [this, Nat.add_mul_mod_self_right]
    simp only [padNum]
    rw [← List.append_assoc, ih x (y / 10) hy', hdiv, hmod]
    rfl

theorem decDigits_length_le : ∀ n k : Nat, n < 10 ^ k → 0 < k → (decDigits n).length ≤ k := by
  intro n
  induction n using Nat.strong_induction_on with
  | _ n ih =>
    intro k hn hk
    rw [decDigits_eq]
    split
    · simpa using hk
    · rename_i h
      cases k with
      | zero => omega
      | succ m =>
        have hm : 0 < m := by
          by_contra hm
          have : m = 0 := by omega
          subst this
          simp at hn
          omega
        have hd : n / 10 < 10 ^ m := by
          rw [Nat.div_lt_iff_lt_mul (by omega)]
          rw [pow_succ] at hn
          omega
        have := ih (n / 10) (Nat.div_lt_self (by omega) (by omega)) m hd hm
        simp
        omega

theorem decDigits_length_gt : ∀ n k : Nat, 10 ^ k ≤ n → k < (decDigits n).length := by
  intro n
  induction n using Nat.strong_induction_on with
  | _ n ih =>
    intro k hn
    rw [decDigits_eq]
    split
    · rename_i h
      have : k = 0 := by
        by_contra hk
        have h1 : 1 ≤ k := by omega
        have := Nat.pow_le_pow_right (show 1 ≤ 10 by omega) h1
        simp at this
        omega
      subst this
      simp
    · rename_i h
      cases k with
      | zero => simp [decDigits_ne_nil, List.length_pos]
      | succ m =>
        have hd : 10 ^ m ≤ n / 10 := by
          rw [Nat.le_div_iff_mul_le (by omega)]
          rw [pow_succ] at hn
          omega
        have := ih (n / 10) (Nat.div_lt_self (by omega) (by omega)) m hd
        simp
        omega

theorem fmtPad_eq_padNum : ∀ n k : Nat, 0 < k → n < 10 ^ k → fmtPad k n = padNum k n := by
  have hrep : ∀ k : Nat, padNum k 0 = List.replicate k zeroCode := by
    intro k
    induction k with
    | zero => rfl
    | succ m ih =>
      simp [padNum, ih, List.replicate_succ']
  intro n
  induction n using Nat.strong_induction_on with
  | _ n ih =>
    intro k hk hn
    by_cases h10 : n < 10
    · cases k with
      | zero => omega
      | succ m =>
        have hdec : decDigits n = [zeroCode + n] := by rw [decDigits_eq]; simp [h10]
        unfold fmtPad
        rw [hdec]
        simp only [padNum]
        rw [Nat.div_eq_of_lt h10, Nat.mod_eq_of_lt h10, hrep m]
        simp
    · cases k with
      | zero => omega
      | succ m =>
        have hm : 0 < m := by
          by_contra hm
          have : m = 0 := by omega
          subst this
          simp at hn
          omega
        have hd : n / 10 < 10 ^ m := by
          rw [Nat.div_lt_iff_lt_mul (by omega)]
          rw [pow_succ] at hn
          omega
        have hdec : decDigits n = decDigits (n / 10) ++ [zeroCode + n % 10] := by
          rw [decDigits_eq]; simp [h10]
        have hlen : (decDigits (n / 10)).length ≤ m := decDigits_length_le _ _ hd hm
        have hih := ih (n / 10) (Nat.div_lt_self (by omega) (by omega)) m hm hd
        unfold fmtPad at hih ⊢
        rw [hdec]
        simp only [padNum, List.length_append, List.length_singleton]
        have harith : m + 1 - ((decDigits (n / 10)).length + 1)
            = m - (decDigits (n / 10)).length := by omega
        rw [harith, ← hih, ← List.append_assoc]

/-- A number with exactly `k+1` digits prints as its own zero-free
digit string. -/
theorem decDigits_eq_padNum {k n : Nat} (h1 : 10 ^ k ≤ n) (h2 : n < 10 ^ (k + 1)) :
    decDigits n = padNum (k + 1) n := by
  have hle := decDigits_length_le n (k + 1) h2 (by omega)
  have hgt := decDigits_length_gt n k h1
  have hlen : (decDigits n).length = k + 1 := by omega
  have := fmtPad_eq_padNum n (k + 1) (by omega) h2
  unfold fmtPad at this
  rw [hlen] at this
  simpa using this

/-- Head-to-head comparison step for `lexLt`. -/
theorem lexLt_cons (a b : Nat) (as bs : List Nat) :
    lexLt (a :: as) (b :: bs) = true ↔ (a < b ∨ (a = b ∧ lexLt as bs = true)) := by
  by_cases hab : a < b
  · simp [lexLt, hab]
  · by_cases hba : b < a
    · simp [lexLt, hab, hba, show a ≠ b by omega]
    · have : a = b := by omega
      subst this
      simp [lexLt, hab]

/-! ## Capture timestamps (Python `datetime`)

`datetime.strptime(..., "%Y:%m:%d %H:%M:%S")` produces a
`datetime.datetime`; we model it by its six integer fields.  Python
guarantees the field ranges recorded in `DateTime.Valid` (year between
`MINYEAR = 1` and `MAXYEAR = 9999`); comparison of `datetime` objects
is lexicographic on the fields. -/

structure DateTime where
  year : Nat
  month : Nat
  day : Nat
  hour : Nat
  minute : Nat
  second : Nat
  deriving DecidableEq, Repr

/-- The field ranges guaranteed by Python's `datetime`. -/
def DateTime.Valid (t : DateTime) : Prop :=
  1 ≤ t.year ∧ t.year ≤ 9999 ∧ 1 ≤ t.month ∧ t.month ≤ 12 ∧ 1 ≤ t.day ∧ t.day ≤ 31 ∧
    t.hour ≤ 23 ∧ t.minute ≤ 59 ∧ t.second ≤ 59

instance (t : DateTime) : Decidable t.Valid := by
  unfold DateTime.Valid
  infer_instance

/-- The fields in comparison order. -/
def DateTime.fields (t : DateTime) : List Nat :=
  [t.year, t.month, t.day, t.hour, t.minute, t.second]

/-- Python `datetime.__lt__`: lexicographic on the fields;
chronological order for valid datetimes. -/
def DateTime.ltB (a b : DateTime) : Bool := lexLt a.fields b.fields

/-- `when.strftime("%Y%m%d%H%M%S")`: the year unpadded (as glibc
prints `%Y`; four digits for the years `1000..9999`), every other
field zero-padded to width 2. -/
def DateTime.stamp (t : DateTime) : List Nat :=
  decDigits t.year ++ fmtPad 2 t.month ++ fmtPad 2 t.day ++ fmtPad 2 t.hour ++
    fmtPad 2 t.minute ++ fmtPad 2 t.second

/-- Mixed-radix numeric reading of the 14-digit stamp. -/
def DateTime.key (t : DateTime) : Nat :=
  ((((t.year * 100 + t.month) * 100 + t.day) * 100 + t.hour) * 100 + t.minute) * 100 + t.second

theorem DateTime.ltB_iff_key {a b : DateTime} (ha : a.Valid) (hb : b.Valid) :
    a.ltB b = true ↔ a.key < b.key := by
  obtain ⟨y1, mo1, d1, h1, mi1, s1⟩ := a
  obtain ⟨y2, mo2, d2, h2, mi2, s2⟩ := b
  unfold DateTime.Valid at ha hb
  simp only at ha hb
  unfold DateTime.ltB DateTime.fields DateTime.key
  simp only
  rw [lexLt_cons, lexLt_cons, lexLt_cons, lexLt_cons, lexLt_cons]
  have hnil : lexLt [s1] [s2] = true ↔ s1 < s2 := by
    rw [lexLt_singleton]
    simp
  rw [hnil]
  omega

theorem DateTime.key_lt (t : DateTime) (ht : t.Valid) (hy : t.year < 10000) :
    t.key < 10 ^ 14 := by
  obtain ⟨y, mo, d, h, mi, s⟩ := t
  unfold DateTime.Valid at ht
  simp only at ht
  unfold DateTime.key
  simp only
  norm_num
  nlinarith [ht.1, ht.2.1]

/-- For years `1000..9999` (all EXIF years) the strftime stamp is the
14-digit zero-padded decimal of the mixed-radix key. -/
theorem DateTime.stamp_eq_padNum (t : DateTime) (ht : t.Valid) (hy : 1000 ≤ t.year)
    (hy2 : t.year < 10000) : t.stamp = padNum 14 t.key := by
  obtain ⟨y, mo, d, h, mi, s⟩ := t
  unfold DateTime.Valid at ht
  simp only at ht
  unfold DateTime.stamp DateTime.key
  simp only at hy hy2 ⊢
  have h100 : (100 : Nat) = 10 ^ 2 := by norm_num
  have hyd : decDigits y = padNum 4 y := by
    have : (1000 : Nat) = 10 ^ 3 := by norm_num
    exact decDigits_eq_padNum (by omega) (by norm_num; omega)
  have hmo : fmtPad 2 mo = padNum 2 mo := fmtPad_eq_padNum mo 2 (by omega) (by norm_num; omega)
  have hd : fmtPad 2 d = padNum 2 d := fmtPad_eq_padNum d 2 (by omega) (by norm_num; omega)
  have hh : fmtPad 2 h = padNum 2 h := fmtPad_eq_padNum h 2 (by omega) (by norm_num; omega)
  have hmi : fmtPad 2 mi = padNum 2 mi := fmtPad_eq_padNum mi 2 (by omega) (by norm_num; omega)
  have hs : fmtPad 2 s = padNum 2 s := fmtPad_eq_padNum s 2 (by omega) (by norm_num; omega)
  rw [hyd, hmo, hd, hh, hmi, hs]
  rw [padNum_append 4 2 y mo (by norm_num; omega)]
  rw [padNum_append 6 2 (y * 10 ^ 2 + mo) d (by norm_num; omega)]
  rw [padNum_append 8 2 ((y * 10 ^ 2 + mo) * 10 ^ 2 + d) h (by norm_num; omega)]
  rw [padNum_append 10 2 (((y * 10 ^ 2 + mo) * 10 ^ 2 + d) * 10 ^ 2 + h) mi (by norm_num; omega)]
  rw [padNum_append 12 2 ((((y * 10 ^ 2 + mo) * 10 ^ 2 + d) * 10 ^ 2 + h) * 10 ^ 2 + mi) s
    (by norm_num; omega)]
  norm_num

/-! ## Filename parsing (`TimelapseImage.FILE_re` and `__init__`)

Character codes: `G` 71, `J` 74, `P` 80, `.` 46, `_` 95, `:` 58,
space 32, newline 10, digits 48..57. -/

/-- Digit value of a digit character code. -/
def digVal (c : Nat) : Nat := c - zeroCode

/-- Python's `$` anchor (no `re.MULTILINE`) also matches just before
one final newline; stripping it models that. -/
def dollarStrip (s : List Nat) : List Nat :=
  if s.getLast? = some 10 then s.dropLast else s

/-- `re.match` of `FILE_re = "^G([0-9]{3})([0-9]{4}).JPG$"` against a
basename, returning `(int(group 1), int(group 2))` on success.  Note
the `.` before `JPG` is an unescaped regex dot: it matches any single
character except a newline. -/
def FILE_re_match (s : List Nat) : Option (Nat × Nat) :=
  match dollarStrip s with
  | [71, a, b, c, d, e, f, g, x, 74, 80, 71] =>
    if isDigitCode a && isDigitCode b && isDigitCode c && isDigitCode d && isDigitCode e &&
        isDigitCode f && isDigitCode g && x != 10 then
      some ((digVal a * 10 + digVal b) * 10 + digVal c,
        ((digVal d * 10 + digVal e) * 10 + digVal f) * 10 + digVal g)
    else none
  | _ => none

/-- The extension part of `os.path.splitext` (suffix from the last
dot).  CPython additionally refuses a leading-dot-only extension (as
in `".bashrc"`); the program only evaluates `splitext` on names that
matched `FILE_re`, which start with `G`, so that case is
unreachable. -/
def splitextExt (s : List Nat) : List Nat :=
  if 46 ∈ s then 46 :: (s.reverse.takeWhile (fun c => c != 46)).reverse else []

/-- The root part of `os.path.splitext`. -/
def splitextRoot (s : List Nat) : List Nat :=
  s.take (s.length - (splitextExt s).length)

/-- `datetime.strptime(v, "%Y:%m:%d %H:%M:%S")`, `none` standing for
the `ValueError` raised on any non-matching string.  The day-of-month
upper bound is the generic 31; the per-month calendar check CPython
performs is elided (no claim depends on it). -/
def strptimeExif (v : List Nat) : Option DateTime :=
  match v with
  | [y1, y2, y3, y4, 58, m1, m2, 58, d1, d2, 32, h1, h2, 58, n1, n2, 58, s1, s2] =>
    if isDigitCode y1 && isDigitCode y2 && isDigitCode y3 && isDigitCode y4 &&
        isDigitCode m1 && isDigitCode m2 && isDigitCode d1 && isDigitCode d2 &&
        isDigitCode h1 && isDigitCode h2 && isDigitCode n1 && isDigitCode n2 &&
        isDigitCode s1 && isDigitCode s2 then
      let t : DateTime :=
        ⟨((digVal y1 * 10 + digVal y2) * 10 + digVal y3) * 10 + digVal y4,
          digVal m1 * 10 + digVal m2, digVal d1 * 10 + digVal d2,
          digVal h1 * 10 + digVal h2, digVal n1 * 10 + digVal n2,
          digVal s1 * 10 + digVal s2⟩
      if t.Valid then some t else none
    else none
  | _ => none

/-- The metadata the outside world supplies for one opened image file:
whether the PIL image object exposes `_getexif`, and what `_getexif()`
yields — `none`: it returns `None`; `some none`: a dict without tag
`0x9003`; `some (some v)`: tag `0x9003` holds the string `v`. -/
structure PyImage where
  hasGetexif : Bool
  exifTag : Option (Option (List Nat))
  deriving DecidableEq, Repr

/-- `TimelapseImage.get_exif_time`.  When the image object has no
`_getexif` attribute the method falls through and returns `None`;
when `_getexif()` returns `None`, subscripting raises `TypeError`;
when the dict lacks tag `0x9003`, `KeyError`; when the tag value does
not parse, `strptime` raises `ValueError`. -/
def get_exif_time (img : PyImage) : Except PyErr (Option DateTime) :=
  if img.hasGetexif then
    match img.exifTag with
    | none => .error .typeError
    | some none => .error .keyError
    | some (some v) =>
      match strptimeExif v with
      | none => .error .valueError
      | some t => .ok (some t)
  else .ok none

/-- The attribute state of a `TimelapseImage` object after `__init__`:
a field is `none` when the attribute was never assigned (so that
reading it raises `AttributeError`). -/
structure TImageObj where
  fn : Option (List Nat)
  folder : Option Nat
  group : Option Nat
  seq : Option Nat
  when : Option (Option DateTime)
  size : Option Nat
  basefn : Option (List Nat)
  ext : Option (List Nat)
  deriving DecidableEq, Repr

/-- `TimelapseImage.__init__(fn, folder)`.  `exists_` is
`os.path.exists(fn)`, `name` the basename of `fn`, `img` the opened
image's metadata, `fsize` `os.path.getsize(fn)`.  When the path does
not exist the constructor returns immediately, assigning nothing. -/
def TimelapseImage.init (exists_ : Bool) (name : List Nat) (folder : Nat) (img : PyImage)
    (fsize : Nat) : Except PyErr TImageObj :=
  if !exists_ then
    .ok ⟨none, none, none, none, none, none, none, none⟩
  else
    match FILE_re_match name with
    | none => .ok ⟨some name, some folder, some 0, none, none, none, none, none⟩
    | some (g, q) =>
      match get_exif_time img with
      | .error e => .error e
      | .ok w =>
        .ok ⟨some name, some folder, some g, some q, some w, some fsize,
          some (splitextRoot name), some (splitextExt name)⟩

/-- The main loop's `ti.group` attribute read: `AttributeError` when
`__init__` never assigned the attribute. -/
def TImageObj.getGroup (o : TImageObj) : Except PyErr Nat :=
  match o.group with
  | none => .error .attributeError
  | some g => .ok g

/-! ## Sessions (`Timelapse`) -/

/-- A fully initialized session image: the attribute values of a
`TimelapseImage` whose file existed and whose name matched `FILE_re`
(the only images the main loop keeps, via `ti.group == 0` filtering
and `Timelapse.add_image`). -/
structure TLImage where
  group : Nat
  folder : Nat
  seq : Nat
  when : Option DateTime
  size : Nat
  ext : List Nat
  deriving DecidableEq, Repr

/-- `TimelapseImage.sortname`: the string
`"%d_%03d_%s_%04d" % (group, folder, when.strftime("%Y%m%d%H%M%S"), seq)`.
`none` models the `AttributeError` raised by `None.strftime` when the
capture time is absent. -/
def TLImage.sortname (i : TLImage) : Option (List Nat) :=
  i.when.map (fun t =>
    decDigits i.group ++ [95] ++ fmtPad 3 i.folder ++ [95] ++ t.stamp ++ [95] ++ fmtPad 4 i.seq)

/-- `Timelapse.__init__(number)` state plus mutations. -/
structure Timelapse where
  seq : Nat
  images : List TLImage
  number : Nat
  first : Option DateTime
  last : Option DateTime
  size : Nat
  deriving DecidableEq, Repr

/-- `Timelapse(number)`. -/
def Timelapse.new (number : Nat) : Timelapse := ⟨0, [], number, none, none, 0⟩

/-- `Timelapse.add_image(ti)`.  The comparison `self.last < ti.when`
raises `TypeError` when `ti.when` is `None` (and `self.last` is
not). -/
def Timelapse.add_image (t : Timelapse) (ti : TLImage) : Except PyErr Timelapse :=
  if ti.group != t.number then .ok t
  else
    let first' := if t.images.length = 0 then ti.when else t.first
    match t.last with
    | none =>
      .ok { t with
            images := t.images ++ [ti]
            first := first'
            last := ti.when
            size := t.size + ti.size }
    | some l =>
      match ti.when with
      | none => .error .typeError
      | some w =>
        if l.ltB w then
          .ok { t with
                images := t.images ++ [ti]
                first := first'
                last := some w
                size := t.size + ti.size }
        else
          .ok { t with
                images := t.images ++ [ti]
                first := first'
                last := some l
                size := t.size + ti.size }

/-- A sequence of `add_image` calls. -/
def Timelapse.runAdds (t : Timelapse) : List TLImage → Except PyErr Timelapse
  | [] => .ok t
  | i :: rest =>
    match t.add_image i with
    | .error e => .error e
    | .ok t' => t'.runAdds rest

/-- CPython's `sorted(imgs, key=f)` first computes every element's
key; the first missing capture time aborts with `AttributeError`
(`none` here). -/
def keyImages : List TLImage → Option (List (List Nat × TLImage))
  | [] => some []
  | i :: rest =>
    match i.sortname, keyImages rest with
    | some k, some ks => some ((k, i) :: ks)
    | _, _ => none

/-- The comparison `sorted` uses on decorated elements: not
`key b < key a` (Python sorts with `__lt__` only). -/
def imageLe (a b : List Nat × TLImage) : Bool := !lexLt b.1 a.1

/-- `sorted(imgs, key=lambda x: x.sortname())`: compute all keys, then
stable-sort by string comparison of the keys. -/
def sortImages (imgs : List TLImage) : Option (List TLImage) :=
  (keyImages imgs).map (fun keyed => (stableSortB imageLe keyed).map Prod.snd)

/-- `Timelapse.sorted_images`. -/
def Timelapse.sorted_images (t : Timelapse) : Option (List TLImage) :=
  sortImages t.images

/-! ## Destination naming and the copy engine (`Timelapse.copy_files`) -/

/-- `os.path.join(basedir, "%s_%03d" % (prefix, n))`, with the base
directory elided (all candidates share it). -/
def destName (pfx : List Nat) (n : Nat) : List Nat := pfx ++ [95] ++ fmtPad 3 n

/-- The collision `while` loop of `copy_files`, fuel-indexed:
increment the counter while the candidate directory exists. -/
def resolveLoop (ex : List (List Nat)) (pfx : List Nat) : Nat → Nat → Option Nat
  | 0, _ => none
  | fuel + 1, s => if destName pfx s ∈ ex then resolveLoop ex pfx fuel (s + 1) else some s

/-- The resolved destination counter: first `n ≥ s` whose directory
name is unused.  Fuel `ex.length + 1` always suffices (proved
below). -/
def resolveSeq (ex : List (List Nat)) (pfx : List Nat) (s : Nat) : Option Nat :=
  resolveLoop ex pfx (ex.length + 1) s

/-- The copy loop of `copy_files`: for each ordered image, destination
basename `"%08d%s" % (n, ti.ext)` with `n` starting at 1. -/
def copyList : List TLImage → Nat → List (List Nat × TLImage)
  | [], _ => []
  | i :: rest, n => (fmtPad 8 n ++ i.ext, i) :: copyList rest (n + 1)

/-- `Timelapse.copy_files(basedir, prefix, seq)`: resolve the
destination directory, create it, copy the sorted images into it.
Returns the updated `Timelapse` (with `self.seq` set to the counter
actually used), the list of (destination basename, source image)
copies in order, and the directory listing afterwards. -/
def Timelapse.copy_files (t : Timelapse) (existing : List (List Nat)) (pfx : List Nat)
    (seq : Nat) : Option (Timelapse × List (List Nat × TLImage) × List (List Nat)) :=
  match resolveSeq existing pfx seq with
  | none => none
  | some n =>
    match sortImages t.images with
    | none => none
    | some ordered =>
      some ({ t with seq := n }, copyList ordered 1, existing ++ [destName pfx n])

/-! ## Persistent counter (`read_sequence` / `write_sequence`) -/

/-- Python whitespace stripped by `int(str)`. -/
def isWsCode (c : Nat) : Bool :=
  c == 32 || c == 9 || c == 10 || c == 13 || c == 11 || c == 12

/-- The `int(str)` builtin: strip whitespace, optional `+`/`-` sign
(codes 43/45), decimal digits; anything else raises `ValueError`
(`none` here). -/
def pyInt (s : List Nat) : Option Int :=
  match ((s.dropWhile isWsCode).reverse.dropWhile isWsCode).reverse with
  | [] => none
  | c :: rest =>
    if c == 43 then
      if rest != [] && rest.all isDigitCode then some ((valD rest : Nat) : Int) else none
    else if c == 45 then
      if rest != [] && rest.all isDigitCode then some (-((valD rest : Nat) : Int)) else none
    else
      if (c :: rest).all isDigitCode then some ((valD (c :: rest) : Nat) : Int) else none

/-- `read_sequence(thedir)`: 0 when the marker file `.goproimport`
does not exist, else `int(contents)` — which raises `ValueError` on
unparsable contents. -/
def read_sequence (marker : Option (List Nat)) : Except PyErr Int :=
  match marker with
  | none => .ok 0
  | some s =>
    match pyInt s with
    | none => .error .valueError
    | some v => .ok v

/-- `write_sequence(thedir, val)`: the marker file afterwards holds
`"%d" % val` (the run only ever writes the non-negative counter). -/
def write_sequence (val : Nat) : List Nat := decDigits val

/-! ## The `__main__` processing loop -/

/-- The mutable state of the per-session loop: the destination
directory listing, the running `seq` variable, the `imported` count,
and (ghost, for specification only) the list of counters consumed so
far. -/
structure RunState where
  existing : List (List Nat)
  seq : Nat
  imported : Nat
  consumed : List Nat
  deriving DecidableEq, Repr

/-- One iteration of the session loop: on approval run `copy_files`,
then `imported += 1` and `seq = t.seq`; otherwise skip. -/
def processOne (pfx : List Nat) (st : RunState) (tl : Timelapse) (approved : Bool) :
    Option RunState :=
  if approved then
    match tl.copy_files st.existing pfx st.seq with
    | none => none
    | some (t', _ops, ex') => some ⟨ex', t'.seq, st.imported + 1, st.consumed ++ [t'.seq]⟩
  else some st

def processAll (pfx : List Nat) : RunState → List (Timelapse × Bool) → Option RunState
  | st, [] => some st
  | st, (tl, ap) :: rest =>
    match processOne pfx st tl ap with
    | none => none
    | some st' => processAll pfx st' rest

/-- One whole run of the `__main__` block after the scan: `s0` is the
counter `read_sequence` yielded, the sessions are offered in order
with the user's decision attached.  The second component is the
`write_sequence` call: `some v` when `imported > 0` (the marker is
rewritten with `v`), `none` when the marker is left untouched. -/
def run (pfx : List Nat) (existing0 : List (List Nat)) (s0 : Nat)
    (sessions : List (Timelapse × Bool)) : Option (RunState × Option Nat) :=
  (processAll pfx ⟨existing0, s0, 0, []⟩ sessions).map
    (fun st => (st, if st.imported > 0 then some st.seq else none))

/-- The marker file contents after the run. -/
def finalMarker (m0 : Option (List Nat)) (w : Option Nat) : Option (List Nat) :=
  match w with
  | none => m0
  | some v => some (write_sequence v)

/-! ## Correctness of the destination namer -/

theorem destName_inj {pfx : List Nat} {a b : Nat} (h : destName pfx a = destName pfx b) :
    a = b := by
  unfold destName at h
  have h1 := List.append_cancel_left h
  exact fmtPad_injective 3 h1

theorem resolveLoop_none {ex : List (List Nat)} {pfx : List Nat} :
    ∀ f s, resolveLoop ex pfx f s = none → ∀ i, i < f → destName pfx (s + i) ∈ ex := by
  intro f
  induction f with
  | zero => intro s _ i hi; omega
  | succ f ih =>
    intro s h i hi
    unfold resolveLoop at h
    by_cases hm : destName pfx s ∈ ex
    · rw [if_pos hm] at h
      cases i with
      | zero => simpa using hm
      | succ j =>
        have := ih (s + 1) h j (by omega)
        have harr : s + 1 + j = s + (j + 1) := by omega
        rwa [harr] at this
    · rw [if_neg hm] at h
      exact absurd h (by simp)

theorem resolveLoop_some {ex : List (List Nat)} {pfx : List Nat} :
    ∀ f s n, resolveLoop ex pfx f s = some n →
      s ≤ n ∧ destName pfx n ∉ ex ∧ ∀ m, s ≤ m → m < n → destName pfx m ∈ ex := by
  intro f
  induction f with
  | zero => intro s n h; simp [resolveLoop] at h
  | succ f ih =>
    intro s n h
    unfold resolveLoop at h
    by_cases hm : destName pfx s ∈ ex
    · rw [if_pos hm] at h
      obtain ⟨h1, h2, h3⟩ := ih (s + 1) n h
      refine ⟨by omega, h2, ?_⟩
      intro m hm1 hm2
      by_cases hms : m = s
      · subst hms; exact hm
      · exact h3 m (by omega) hm2
    · rw [if_neg hm] at h
      injection h with h
      subst h
      exact ⟨Nat.le_refl _, hm, by intro m h1 h2; omega⟩

/-- The collision loop always succeeds with the least unused counter
at or above the start value. -/
theorem resolveSeq_spec (ex : List (List Nat)) (pfx : List Nat) (s : Nat) :
    ∃ n, resolveSeq ex pfx s = some n ∧ s ≤ n ∧ destName pfx n ∉ ex ∧
      ∀ m, s ≤ m → m < n → destName pfx m ∈ ex := by
  unfold resolveSeq
  cases hres : resolveLoop ex pfx (ex.length + 1) s with
  | some n =>
    obtain ⟨h1, h2, h3⟩ := resolveLoop_some _ _ _ hres
    exact ⟨n, rfl, h1, h2, h3⟩
  | none =>
    exfalso
    have hmem := resolveLoop_none _ _ hres
    have hsub : (List.range (ex.length + 1)).map (fun i => destName pfx (s + i)) ⊆ ex := by
      intro y hy
      rcases List.mem_map.mp hy with ⟨i, hi, rfl⟩
      exact hmem i (List.mem_range.mp hi)
    have hnd : ((List.range (ex.length + 1)).map (fun i => destName pfx (s + i))).Nodup := by
      refine List.Nodup.map ?_ (List.nodup_range _)
      intro a b hab
      have := destName_inj hab
      omega
    have := (hnd.subperm hsub).length_le
    simp at this

/-- What a successful `copy_files` call did. -/
theorem copy_files_spec {t : Timelapse} {ex : List (List Nat)} {pfx : List Nat} {s : Nat}
    {t' : Timelapse} {ops : List (List Nat × TLImage)} {ex' : List (List Nat)}
    (h : t.copy_files ex pfx s = some (t', ops, ex')) :
    resolveSeq ex pfx s = some t'.seq ∧
    t' = { t with seq := t'.seq } ∧
    ex' = ex ++ [destName pfx t'.seq] ∧
    ∃ ordered, sortImages t.images = some ordered ∧ ops = copyList ordered 1 := by
  unfold Timelapse.copy_files at h
  cases hres : resolveSeq ex pfx s with
  | none => rw [hres] at h; simp at h
  | some n =>
    rw [hres] at h
    cases hso : sortImages t.images with
    | none => rw [hso] at h; simp at h
    | some ordered =>
      rw [hso] at h
      simp only [Option.some.injEq, Prod.mk.injEq] at h
      obtain ⟨h1, h2, h3⟩ := h
      subst h2
      subst h3
      have hseq : t'.seq = n := by rw [← h1]
      subst hseq
      exact ⟨rfl, h1.symm, rfl, ⟨ordered, rfl, rfl⟩⟩

/-! ## Counter round-trip -/

theorem digit_not_ws {c : Nat} (h : isDigitCode c = true) : isWsCode c = false := by
  unfold isDigitCode at h
  unfold isWsCode
  simp at h ⊢
  unfold zeroCode at h
  omega

theorem dropWhile_ws_of_digits {l : List Nat} (h : ∀ c ∈ l, isDigitCode c = true) :
    l.dropWhile isWsCode = l := by
  cases l with
  | nil => rfl
  | cons c cs =>
    rw [List.dropWhile_cons]
    rw [digit_not_ws (h c (List.mem_cons_self c cs))]
    simp

/-- Reading back a marker this program wrote yields the written
value. -/
theorem pyInt_decDigits (v : Nat) : pyInt (decDigits v) = some (v : Int) := by
  have hdig := decDigits_all_digit v
  have hne := decDigits_ne_nil v
  unfold pyInt
  have h1 : (decDigits v).dropWhile isWsCode = decDigits v := dropWhile_ws_of_digits hdig
  have hdigr : ∀ c ∈ (decDigits v).reverse, isDigitCode c = true := by
    intro c hc
    exact hdig c (List.mem_reverse.mp hc)
  have h2 : (decDigits v).reverse.dropWhile isWsCode = (decDigits v).reverse :=
    dropWhile_ws_of_digits hdigr
  rw [h1, h2, List.reverse_reverse]
  cases hds : decDigits v with
  | nil => exact absurd hds hne
  | cons c cs =>
    have hc : isDigitCode c = true := by
      rw [hds] at hdig
      exact hdig c (List.mem_cons_self c cs)
    have hcb : 48 ≤ c ∧ c ≤ 57 := by
      unfold isDigitCode zeroCode at hc
      simp at hc
      omega
    have h43 : (c == 43) = false := by simp; omega
    have h45 : (c == 45) = false := by simp; omega
    have hall : (c :: cs).all isDigitCode = true := by
      rw [List.all_eq_true]
      intro x hx
      rw [hds] at hdig
      exact hdig x hx
    have hval : valD (c :: cs) = v := by
      rw [← hds]
      exact valD_decDigits v
    split
    · rename_i heq
      exact absurd heq (by simp)
    · rename_i c' rest' heq
      injection heq with e1 e2
      subst e1
      subst e2
      rw [h43, h45]
      simp only [Bool.false_eq_true, if_false]
      rw [hall]
      simp only [if_true]
      rw [hval]

theorem read_write_roundtrip (v : Nat) :
    read_sequence (some (write_sequence v)) = .ok (v : Int) := by
  simp only [read_sequence, write_sequence]
  rw [pyInt_decDigits]

/-! ## The session loop invariant -/

theorem processAll_spec (pfx : List Nat) :
    ∀ (sess : List (Timelapse × Bool)) (st st' : RunState),
      processAll pfx st sess = some st' →
      ∃ newc : List Nat,
        st'.consumed = st.consumed ++ newc ∧
        st'.imported = st.imported + newc.length ∧
        st.seq ≤ st'.seq ∧
        (∀ c ∈ newc, c ≤ st'.seq) ∧
        (newc = [] → st' = st) ∧
        (newc ≠ [] → st'.seq ∈ newc) := by
  intro sess
  induction sess with
  | nil =>
    intro st st' h
    simp only [processAll, Option.some.injEq] at h
    subst h
    exact ⟨[], by simp, by simp, Nat.le_refl _, by simp, fun _ => rfl, by simp⟩
  | cons hd rest ih =>
    intro st st' h
    obtain ⟨tl, ap⟩ := hd
    simp only [processAll] at h
    cases hpo : processOne pfx st tl ap with
    | none => rw [hpo] at h; simp at h
    | some st1 =>
      rw [hpo] at h
      obtain ⟨newc', hc, hi, hs, hall, hnil, hmem⟩ := ih st1 st' h
      unfold processOne at hpo
      by_cases hap : ap = true
      · rw [hap] at hpo
        simp only [if_true] at hpo
        cases hcf : tl.copy_files st.existing pfx st.seq with
        | none => rw [hcf] at hpo; simp at hpo
        | some trip =>
          obtain ⟨t', ops, ex'⟩ := trip
          rw [hcf] at hpo
          simp only [Option.some.injEq] at hpo
          obtain ⟨hres, -, -, -⟩ := copy_files_spec hcf
          obtain ⟨n, hn, hge, -, -⟩ := resolveSeq_spec st.existing pfx st.seq
          rw [hres] at hn
          have hge' : st.seq ≤ t'.seq := by
            injection hn with hn
            omega
          subst hpo
          refine ⟨t'.seq :: newc', ?_, ?_, ?_, ?_, ?_, ?_⟩
          · rw [hc]
            simp
          · rw [hi]
            simp only [List.length_cons]
            omega
          · simp only at hs
            omega
          · intro c hcmem
            rcases List.mem_cons.mp hcmem with hcm | hcm
            · subst hcm
              simpa using hs
            · exact hall c hcm
          · intro hfalse
            exact absurd hfalse (by simp)
          · intro _
            by_cases hnc : newc' = []
            · subst hnc
              rw [hnil rfl]
              simp
            · exact List.mem_cons_of_mem _ (hmem hnc)
      · have hap' : ap = false := by
          cases ap
          · rfl
          · exact absurd rfl hap
        rw [hap'] at hpo
        simp only [Bool.false_eq_true, if_false, Option.some.injEq] at hpo
        subst hpo
        exact ⟨newc', hc, hi, hs, hall, hnil, hmem⟩

/-- What a successful run did: the consumed counters count the
imports, the marker write is skipped exactly when nothing was
imported, and the value written is the largest counter consumed. -/
theorem run_spec {pfx : List Nat} {ex0 : List (List Nat)} {s0 : Nat}
    {sess : List (Timelapse × Bool)} {st : RunState} {w : Option Nat}
    (h : run pfx ex0 s0 sess = some (st, w)) :
    st.consumed.length = st.imported ∧
    (st.imported = 0 → w = none ∧ st.consumed = []) ∧
    (0 < st.imported → w = some st.seq ∧ st.seq ∈ st.consumed ∧
      ∀ c ∈ st.consumed, c ≤ st.seq) := by
  unfold run at h
  cases hpa : processAll pfx ⟨ex0, s0, 0, []⟩ sess with
  | none => rw [hpa] at h; simp at h
  | some st1 =>
    rw [hpa] at h
    simp only [Option.map_some', Option.some.injEq, Prod.mk.injEq] at h
    obtain ⟨hst, hw⟩ := h
    obtain ⟨newc, hc, hi, hs, hall, hnil, hmem⟩ := processAll_spec pfx sess _ _ hpa
    subst hst
    simp only [List.nil_append] at hc
    simp only [Nat.zero_add] at hi
    refine ⟨by rw [hc, hi], ?_, ?_⟩
    · intro h0
      have hlen : newc.length = 0 := by omega
      have hempty : newc = [] := List.length_eq_zero.mp hlen
      subst hw
      constructor
      · simp [h0]
      · rw [hc, hempty]
    · intro hpos
      have hne : newc ≠ [] := by
        intro hfalse
        rw [hfalse] at hi
        simp at hi
        omega
      refine ⟨?_, ?_, ?_⟩
      · subst hw
        simp only [gt_iff_lt]
        rw [if_pos (by omega)]
      · rw [hc]
        exact hmem hne
      · intro c hcmem
        rw [hc] at hcmem
        exact hall c hcmem

/-- **C5**: for every directory listing, prefix and starting counter,
destination-name resolution succeeds and returns the first counter
`n ≥ start` whose directory name `<prefix>_<3-digit n>` is unused:
the returned name never collides with an existing directory (such as
an existing `GoPro_001`), and every skipped candidate below `n`
already existed. -/
theorem C5_resolve_returns_unused_name (ex : List (List Nat)) (pfx : List Nat) (s : Nat) :
    ∃ n, resolveSeq ex pfx s = some n ∧ s ≤ n ∧ destName pfx n ∉ ex ∧
      ∀ m, s ≤ m → m < n → destName pfx m ∈ ex :=
  resolveSeq_spec ex pfx s

/-- **C7**: in every run the marker file is written at most once and
only if at least one session was processed (`imported = 0` keeps it
untouched, `w = none`), and the value written is the highest counter
consumed across all sessions processed in the run. -/
theorem C7_counter_written_once_with_highest (pfx : List Nat) (ex0 : List (List Nat))
    (s0 : Nat) (sess : List (Timelapse × Bool)) (st : RunState) (w : Option Nat)
    (h : run pfx ex0 s0 sess = some (st, w)) :
    st.consumed.length = st.imported ∧
    (st.imported = 0 → w = none ∧ st.consumed = []) ∧
    (0 < st.imported → w = some st.seq ∧ st.seq ∈ st.consumed ∧
      ∀ c ∈ st.consumed, c ≤ st.seq) :=
  run_spec h

/-- Concrete two-session run used to instantiate the counter claims. -/
def twoSessionState : RunState :=
  ⟨[destName [71] 0, destName [71] 1, destName [71] 2], 2, 2, [1, 2]⟩

/-- Witness for C7 at a concrete two-session run that consumed
counters 1 and 2. -/
theorem C7_witness :
    twoSessionState.consumed.length = twoSessionState.imported ∧
    (twoSessionState.imported = 0 → (some 2 : Option Nat) = none ∧
      twoSessionState.consumed = []) ∧
    (0 < twoSessionState.imported → (some 2 : Option Nat) = some twoSessionState.seq ∧
      twoSessionState.seq ∈ twoSessionState.consumed ∧
      ∀ c ∈ twoSessionState.consumed, c ≤ twoSessionState.seq) :=
  C7_counter_written_once_with_highest [71] [destName [71] 0] 0
    [(Timelapse.new 4, true), (Timelapse.new 7, true)] twoSessionState (some 2) (by decide)

/-- **C2** counterexample: a run from marker-less state with
`G_000` present consumes counters 1 and 2 and writes marker `"2"`
(byte 50).  If directory `G_002` no longer exists at the next run,
that run reads 2 and its first resolution returns counter 2 — the
candidate search starts from the persisted 2, not from 3, and the
name `G_002` from the earlier run is reused. -/
theorem C2_counterexample :
    run [71] [destName [71] 0] 0 [(Timelapse.new 4, true), (Timelapse.new 7, true)]
      = some (twoSessionState, some 2) ∧
    write_sequence 2 = [50] ∧
    read_sequence (some [50]) = Except.ok 2 ∧
    resolveSeq [destName [71] 0, destName [71] 1] [71] 2 = some 2 := by decide

/-- **C2** (amended): after a run whose processed sessions consumed
counters 1 and 2 the marker is written once with decimal `2` and reads
back as 2; a subsequent run's first resolution starts its candidate
search from the persisted counter 2 (not 3), so as long as the
directory for counter 2 still exists it resolves to 3 or higher and
never reuses an existing directory. -/
theorem C2_next_run_counter (pfx : List Nat) (ex0 : List (List Nat)) (s0 : Nat)
    (sess : List (Timelapse × Bool)) (st : RunState) (w : Option Nat)
    (m0 : Option (List Nat)) (ex' : List (List Nat))
    (h : run pfx ex0 s0 sess = some (st, w)) (hcons : st.consumed = [1, 2])
    (hex : destName pfx 2 ∈ ex') :
    w = some 2 ∧
    finalMarker m0 w = some (write_sequence 2) ∧
    read_sequence (finalMarker m0 w) = Except.ok 2 ∧
    ∃ n, resolveSeq ex' pfx 2 = some n ∧ 3 ≤ n ∧ destName pfx n ∉ ex' := by
  obtain ⟨hlen, -, hpos⟩ := run_spec h
  rw [hcons] at hlen
  simp at hlen
  obtain ⟨hw, hmem, hall⟩ := hpos (by omega)
  rw [hcons] at hmem hall
  have hseq : st.seq = 2 := by
    have h2 : 2 ≤ st.seq := hall 2 (by simp)
    rcases List.mem_cons.mp hmem with h' | h'
    · omega
    · simp at h'
      omega
  rw [hseq] at hw
  subst hw
  refine ⟨rfl, rfl, read_write_roundtrip 2, ?_⟩
  obtain ⟨n, hn, hge, hnot, -⟩ := resolveSeq_spec ex' pfx 2
  refine ⟨n, hn, ?_, hnot⟩
  by_cases h2 : n = 2
  · subst h2
    exact absurd hex hnot
  · omega

/-- Witness for C2 (amended): the same concrete two-session run, with
the next run's base directory still holding all three directories. -/
theorem C2_witness :
    (some 2 : Option Nat) = some 2 ∧
    finalMarker none (some 2) = some (write_sequence 2) ∧
    read_sequence (finalMarker none (some 2)) = Except.ok 2 ∧
    ∃ n, resolveSeq [destName [71] 0, destName [71] 1, destName [71] 2] [71] 2 = some n ∧
      3 ≤ n ∧ destName [71] n ∉ [destName [71] 0, destName [71] 1, destName [71] 2] :=
  C2_next_run_counter [71] [destName [71] 0] 0
    [(Timelapse.new 4, true), (Timelapse.new 7, true)] twoSessionState (some 2) none
    [destName [71] 0, destName [71] 1, destName [71] 2] (by decide) (by decide) (by decide)

/-- **C6** counterexample: reading an existing marker file holding
`"garbage"` raises `ValueError` instead of returning 0. -/
theorem C6_counterexample :
    read_sequence (some [103, 97, 114, 98, 97, 103, 101]) = Except.error PyErr.valueError := by
  decide

/-- **C6** (amended): reading the counter returns 0 when the marker
file is absent and returns the stored value for any marker this
program wrote; but when the contents do not parse as an integer the
read raises `ValueError` (aborting the run) rather than returning
0. -/
theorem C6_read_sequence_behaviour :
    read_sequence none = Except.ok 0 ∧
    (∀ v : Nat, read_sequence (some (write_sequence v)) = Except.ok (v : Int)) ∧
    (∀ s, pyInt s = none → read_sequence (some s) = Except.error PyErr.valueError) := by
  refine ⟨rfl, fun v => read_write_roundtrip v, fun s hs => ?_⟩
  simp only [read_sequence]
  rw [hs]

/-- Witness for C6 at the concrete marker contents `"garbage"`. -/
theorem C6_witness :
    pyInt [103, 97, 114, 98, 97, 103, 101] = none ∧
    read_sequence (some [103, 97, 114, 98, 97, 103, 101]) = Except.error PyErr.valueError :=
  ⟨by decide, C6_read_sequence_behaviour.2.2 _ (by decide)⟩

/-- **C1** (code evaluation at the failing input): for the matching
filename `G0041234.JPG`, when the opened image has no `_getexif`
support (e.g. a non-JPEG misnamed `.JPG`), parsing succeeds and
silently stores `None` as the capture time — no distinct, catchable
MissingCaptureMetadata condition is raised; and when the image has
exif data lacking tag 0x9003 parsing dies with a generic `KeyError`
instead of a distinct named condition. -/
theorem C1_missing_metadata_silent_none :
    TimelapseImage.init true [71, 48, 48, 52, 49, 50, 51, 52, 46, 74, 80, 71] 3
        ⟨false, none⟩ 100
      = Except.ok ⟨some [71, 48, 48, 52, 49, 50, 51, 52, 46, 74, 80, 71], some 3, some 4,
        some 1234, some none, some 100, some [71, 48, 48, 52, 49, 50, 51, 52],
        some [46, 74, 80, 71]⟩ ∧
    TimelapseImage.init true [71, 48, 48, 52, 49, 50, 51, 52, 46, 74, 80, 71] 3
        ⟨true, some none⟩ 100
      = Except.error PyErr.keyError := by decide

/-- **C3** (code evaluation): `G0041234.JPG` parses to session 4,
sequence 1234, and `note.txt` / `G12.JPG` yield the group-0 marker
without raising; but the failing input `G0041234xJPG` — which
deviates from the fixed case-sensitive `.JPG`-extension pattern —
also parses to session 4, because the dot in `FILE_re` is an
unescaped regex any-character. -/
theorem C3_extension_dot_unescaped :
    FILE_re_match [71, 48, 48, 52, 49, 50, 51, 52, 46, 74, 80, 71] = some (4, 1234) ∧
    FILE_re_match [110, 111, 116, 101, 46, 116, 120, 116] = none ∧
    FILE_re_match [71, 49, 50, 46, 74, 80, 71] = none ∧
    FILE_re_match [71, 48, 48, 52, 49, 50, 51, 52, 120, 74, 80, 71] = some (4, 1234) ∧
    (TimelapseImage.init true [71, 48, 48, 52, 49, 50, 51, 52, 120, 74, 80, 71] 3
        ⟨false, none⟩ 50).map (fun o => o.group)
      = Except.ok (some 4) := by decide

/-- **C10**: for every candidate path that does not exist at parse
time, the constructor returns with no attribute assigned — not even
the group-0 "not part of any session" marker — so the caller's
subsequent `ti.group` read raises `AttributeError` instead of
producing the documented ParsedImage-or-None result. -/
theorem C10_nonexistent_path_uninitialized (name : List Nat) (folder : Nat) (img : PyImage)
    (fsize : Nat) :
    TimelapseImage.init false name folder img fsize
      = Except.ok ⟨none, none, none, none, none, none, none, none⟩ ∧
    (TImageObj.mk none none none none none none none none).getGroup
      = Except.error PyErr.attributeError :=
  ⟨rfl, rfl⟩

/-! ## Aggregation invariants (`Timelapse.add_image`) -/

/-- Python `datetime.__le__`: `a ≤ b` iff not `b < a`. -/
def DateTime.leB (a b : DateTime) : Bool := !DateTime.ltB b a

theorem DateTime.leB_refl (a : DateTime) : a.leB a = true := by
  unfold DateTime.leB DateTime.ltB
  rw [lexLt_irrefl]
  rfl

theorem DateTime.ltB_leB {a b : DateTime} (h : a.ltB b = true) : a.leB b = true := by
  unfold DateTime.leB
  unfold DateTime.ltB at h ⊢
  rw [lexLt_asymm h]
  rfl

theorem DateTime.leB_trans {a b c : DateTime} (h1 : a.leB b = true) (h2 : b.leB c = true) :
    a.leB c = true := by
  unfold DateTime.leB DateTime.ltB at h1 h2 ⊢
  simp only [Bool.not_eq_true'] at h1 h2
  simp only [Bool.not_eq_true']
  by_contra hca
  have hca' : lexLt c.fields a.fields = true := by
    cases hcc : lexLt c.fields a.fields
    · exact absurd hcc hca
    · rfl
  rcases lexLt_trichot a.fields b.fields with hab | hab | hab
  · have := lexLt_trans hca' hab
    rw [h2] at this
    exact Bool.noConfusion this
  · rw [← hab] at h2
    rw [h2] at hca'
    exact Bool.noConfusion hca'
  · rw [h1] at hab
    exact Bool.noConfusion hab

/-- What one successful `add_image` of a matching image with a capture
time does to the session state. -/
theorem add_image_spec {t : Timelapse} {i : TLImage} {w0 : DateTime}
    (hg : i.group = t.number) (hw : i.when = some w0) :
    ∃ t1, t.add_image i = Except.ok t1 ∧
      t1.number = t.number ∧ t1.seq = t.seq ∧
      t1.images = t.images ++ [i] ∧ t1.size = t.size + i.size ∧
      t1.first = (if t.images.length = 0 then i.when else t.first) ∧
      ∃ m, t1.last = some m ∧
        (t.last = some m ∨ m = w0) ∧
        (∀ v, t.last = some v → v.leB m = true) ∧
        w0.leB m = true := by
  cases hlast : t.last with
  | none =>
    have heq : t.add_image i = Except.ok ⟨t.seq, t.images ++ [i], t.number,
        (if t.images.length = 0 then some w0 else t.first), some w0, t.size + i.size⟩ := by
      unfold Timelapse.add_image
      rw [show (i.group != t.number) = false by simp [hg], hw, hlast]
      simp
    exact ⟨_, heq, rfl, rfl, rfl, rfl, by rw [hw], w0, rfl, Or.inr rfl,
      fun v hv => Option.noConfusion hv, DateTime.leB_refl w0⟩
  | some lst =>
    by_cases hlt : lst.ltB w0 = true
    · have heq : t.add_image i = Except.ok ⟨t.seq, t.images ++ [i], t.number,
          (if t.images.length = 0 then some w0 else t.first), some w0, t.size + i.size⟩ := by
        unfold Timelapse.add_image
        rw [show (i.group != t.number) = false by simp [hg], hw, hlast]
        simp [hlt]
      refine ⟨_, heq, rfl, rfl, rfl, rfl, by rw [hw], w0, rfl, Or.inr rfl, ?_,
        DateTime.leB_refl w0⟩
      intro v hv
      injection hv with hv
      subst hv
      exact DateTime.ltB_leB hlt
    · rw [Bool.not_eq_true] at hlt
      have heq : t.add_image i = Except.ok ⟨t.seq, t.images ++ [i], t.number,
          (if t.images.length = 0 then some w0 else t.first), some lst, t.size + i.size⟩ := by
        unfold Timelapse.add_image
        rw [show (i.group != t.number) = false by simp [hg], hw, hlast]
        simp [hlt]
      refine ⟨_, heq, rfl, rfl, rfl, rfl, by rw [hw], lst, rfl, Or.inl rfl, ?_, ?_⟩
      · intro v hv
        injection hv with hv
        subst hv
        exact DateTime.leB_refl lst
      · unfold DateTime.leB
        rw [hlt]
        rfl

/-- The aggregation invariant over any sequence of `add_image` calls
whose images belong to the session and carry capture times. -/
theorem runAdds_spec : ∀ (l : List TLImage) (t t' : Timelapse),
    (∀ i ∈ l, i.group = t.number ∧ i.when.isSome = true) →
    t.runAdds l = Except.ok t' →
    t'.number = t.number ∧ t'.seq = t.seq ∧ t'.images = t.images ++ l ∧
    t'.size = t.size + (l.map TLImage.size).sum ∧
    (t.images ≠ [] → t'.first = t.first) ∧
    (t.images = [] → t'.first = (match l with | [] => t.first | j :: _ => j.when)) ∧
    (∀ v, t.last = some v → ∃ m, t'.last = some m ∧ v.leB m = true) ∧
    (∀ i ∈ l, ∀ w, i.when = some w → ∃ m, t'.last = some m ∧ w.leB m = true) ∧
    (∀ m, t'.last = some m → t.last = some m ∨ ∃ i ∈ l, i.when = some m) := by
  intro l
  induction l with
  | nil =>
    intro t t' _ h
    simp only [Timelapse.runAdds, Except.ok.injEq] at h
    subst h
    refine ⟨rfl, rfl, by simp, by simp, fun _ => rfl, fun _ => rfl, ?_, by simp, ?_⟩
    · intro v hv
      exact ⟨v, hv, DateTime.leB_refl v⟩
    · intro m hm
      exact Or.inl hm
  | cons i rest ih =>
    intro t t' hcond h
    obtain ⟨hg, hw⟩ := hcond i (List.mem_cons_self i rest)
    obtain ⟨w0, hw0⟩ := Option.isSome_iff_exists.mp hw
    obtain ⟨t1, ht1, hn1, hs1, him1, hsz1, hf1, m1, hl1, hatt1, hup1, hw01⟩ :=
      add_image_spec hg hw0
    have h' : t1.runAdds rest = Except.ok t' := by
      unfold Timelapse.runAdds at h
      rw [ht1] at h
      exact h
    have hcond' : ∀ j ∈ rest, j.group = t1.number ∧ j.when.isSome = true := by
      intro j hj
      obtain ⟨hg', hw'⟩ := hcond j (List.mem_cons_of_mem _ hj)
      exact ⟨by rw [hn1, hg'], hw'⟩
    obtain ⟨ihn, ihs, ihim, ihsz, ihfk, ihfe, ihlast, ihmem, ihatt⟩ := ih t1 t' hcond' h'
    refine ⟨by rw [ihn, hn1], by rw [ihs, hs1], ?_, ?_, ?_, ?_, ?_, ?_, ?_⟩
    · rw [ihim, him1]
      simp
    · rw [ihsz, hsz1]
      simp only [List.map_cons, List.sum_cons]
      omega
    · intro hne
      have hne1 : t1.images ≠ [] := by
        rw [him1]
        simp
      rw [ihfk hne1, hf1]
      rw [if_neg (by simpa [List.length_eq_zero] using hne)]
    · intro hemp
      have hne1 : t1.images ≠ [] := by
        rw [him1]
        simp
      rw [ihfk hne1, hf1]
      rw [if_pos (by simp [hemp])]
    · intro v hv
      obtain ⟨m, hm, hmle⟩ := ihlast m1 hl1
      exact ⟨m, hm, DateTime.leB_trans (hup1 v hv) hmle⟩
    · intro j hj w hwj
      rcases List.mem_cons.mp hj with hj' | hj'
      · subst hj'
        rw [hw0] at hwj
        injection hwj with hwj
        subst hwj
        obtain ⟨m, hm, hmle⟩ := ihlast m1 hl1
        exact ⟨m, hm, DateTime.leB_trans hw01 hmle⟩
      · exact ihmem j hj' w hwj
    · intro m hm
      rcases ihatt m hm with hm' | hm'
      · rw [hl1] at hm'
        injection hm' with hm'
        subst hm'
        rcases hatt1 with hc | hc
        · exact Or.inl hc
        · subst hc
          exact Or.inr ⟨i, List.mem_cons_self i rest, hw0⟩
      · obtain ⟨j, hj, hwj⟩ := hm'
        exact Or.inr ⟨j, List.mem_cons_of_mem _ hj, hwj⟩

/-- **C9** (amended): for every session and sequence of `add_image`
calls of member images carrying capture times, the session state ends
with `images` the list of added members, `totalBytes` the sum of
member byte sizes, `firstCaptureTime` the capture time of the *first
image added* (the minimum only when images arrive in chronological
order), and `lastCaptureTime` the running maximum of member capture
times (an upper bound attained by some member). -/
theorem C9_session_state_invariants (g : Nat) (l : List TLImage) (t' : Timelapse)
    (hcond : ∀ i ∈ l, i.group = g ∧ i.when.isSome = true)
    (h : (Timelapse.new g).runAdds l = Except.ok t') :
    t'.images = l ∧
    t'.size = (l.map TLImage.size).sum ∧
    t'.first = (match l with | [] => none | j :: _ => j.when) ∧
    (∀ i ∈ l, ∀ w, i.when = some w → ∃ m, t'.last = some m ∧ w.leB m = true) ∧
    (∀ m, t'.last = some m → ∃ i ∈ l, i.when = some m) := by
  obtain ⟨-, -, him, hsz, -, hfe, -, hmem, hatt⟩ :=
    runAdds_spec l (Timelapse.new g) t' (by simpa [Timelapse.new] using hcond) h
  refine ⟨by simpa [Timelapse.new] using him, by simpa [Timelapse.new] using hsz, ?_, hmem, ?_⟩
  · have := hfe (by simp [Timelapse.new])
    cases l with
    | nil => simpa [Timelapse.new] using this
    | cons j rest => simpa using this
  · intro m hm
    rcases hatt m hm with hm' | hm'
    · simp [Timelapse.new] at hm'
    · exact hm'

/-- The two concrete member images (added out of chronological order)
used for the C9 claims. -/
def c9Images : List TLImage :=
  [⟨4, 100, 1, some ⟨2020, 1, 1, 0, 0, 10⟩, 10, [46, 74, 80, 71]⟩,
   ⟨4, 100, 2, some ⟨2020, 1, 1, 0, 0, 5⟩, 20, [46, 74, 80, 71]⟩]

/-- The session state after adding `c9Images`. -/
def c9Result : Timelapse :=
  ⟨0, c9Images, 4, some ⟨2020, 1, 1, 0, 0, 10⟩, some ⟨2020, 1, 1, 0, 0, 10⟩, 30⟩

/-- **C9** counterexample: adding a 00:00:10 image and then a 00:00:05
image to session 4 leaves `firstCaptureTime = 00:00:10`, the first
image *added*, while the minimum member capture time is the strictly
earlier 00:00:05 — so `firstCaptureTime` is not the minimum of the
member capture times. -/
theorem C9_counterexample :
    (Timelapse.new 4).runAdds c9Images = Except.ok c9Result ∧
    c9Result.first = some ⟨2020, 1, 1, 0, 0, 10⟩ ∧
    (⟨4, 100, 2, some ⟨2020, 1, 1, 0, 0, 5⟩, 20, [46, 74, 80, 71]⟩ : TLImage) ∈
      c9Result.images ∧
    DateTime.ltB ⟨2020, 1, 1, 0, 0, 5⟩ ⟨2020, 1, 1, 0, 0, 10⟩ = true := by decide

/-- Witness for C9 (amended) at the concrete two-image session. -/
theorem C9_witness :
    c9Result.images = c9Images ∧
    c9Result.size = (c9Images.map TLImage.size).sum ∧
    c9Result.first = (match c9Images with | [] => none | j :: _ => j.when) ∧
    (∀ i ∈ c9Images, ∀ w, i.when = some w →
      ∃ m, c9Result.last = some m ∧ w.leB m = true) ∧
    (∀ m, c9Result.last = some m → ∃ i ∈ c9Images, i.when = some m) :=
  C9_session_state_invariants 4 c9Images c9Result (by decide) (by decide)

/-! ## The copy loop (`copy_files` destination names) -/

theorem copyList_length : ∀ (l : List TLImage) (n : Nat), (copyList l n).length = l.length := by
  intro l
  induction l with
  | nil => intro n; rfl
  | cons x rest ih =>
    intro n
    simp [copyList, ih]

theorem copyList_get : ∀ (l : List TLImage) (n k : Nat) (i : TLImage), l[k]? = some i →
    (copyList l n)[k]? = some (fmtPad 8 (n + k) ++ i.ext, i) := by
  intro l
  induction l with
  | nil =>
    intro n k i h
    simp at h
  | cons x rest ih =>
    intro n k i h
    cases k with
    | zero =>
      simp at h
      subst h
      simp [copyList]
    | succ k =>
      simp only [List.getElem?_cons_succ] at h
      have := ih (n + 1) k i h
      simp only [copyList, List.getElem?_cons_succ]
      rw [this]
      have harr : n + 1 + k = n + (k + 1) := by omega
      rw [harr]

/-- **C8**: for every session processed by the copy engine, the copies
happen in the Orderer-produced order, with destination basenames
`"%08d" % index` plus the source image's extension, the index starting
at 1 and increasing by 1 per file. -/
theorem C8_copy_engine_names (t : Timelapse) (ex : List (List Nat)) (pfx : List Nat)
    (s : Nat) (t' : Timelapse) (ops : List (List Nat × TLImage)) (ex' : List (List Nat))
    (ordered : List TLImage)
    (h : t.copy_files ex pfx s = some (t', ops, ex'))
    (hord : sortImages t.images = some ordered) :
    ops.length = ordered.length ∧
    ∀ k i, ordered[k]? = some i → ops[k]? = some (fmtPad 8 (k + 1) ++ i.ext, i) := by
  obtain ⟨-, -, -, ordered', hord', hops⟩ := copy_files_spec h
  rw [hord] at hord'
  injection hord' with e
  subst e
  subst hops
  refine ⟨copyList_length ordered 1, ?_⟩
  intro k i hk
  rw [copyList_get ordered 1 k i hk]
  rw [Nat.add_comm 1 k]

/-- Three session-4 images (in non-chronological input order) for the
copy-engine witness. -/
def c8Images : List TLImage :=
  [⟨4, 100, 3, some ⟨2020, 1, 1, 0, 0, 2⟩, 10, [46, 74, 80, 71]⟩,
   ⟨4, 100, 1, some ⟨2020, 1, 1, 0, 0, 1⟩, 11, [46, 74, 80, 71]⟩,
   ⟨4, 100, 2, some ⟨2020, 1, 1, 0, 0, 3⟩, 12, [46, 74, 80, 71]⟩]

/-- The orderer output for `c8Images` (chronological). -/
def c8Ordered : List TLImage :=
  [⟨4, 100, 1, some ⟨2020, 1, 1, 0, 0, 1⟩, 11, [46, 74, 80, 71]⟩,
   ⟨4, 100, 3, some ⟨2020, 1, 1, 0, 0, 2⟩, 10, [46, 74, 80, 71]⟩,
   ⟨4, 100, 2, some ⟨2020, 1, 1, 0, 0, 3⟩, 12, [46, 74, 80, 71]⟩]

/-- Witness for C8: a 3-image session copied into an empty base
directory gets destination basenames `00000001.JPG`, `00000002.JPG`,
`00000003.JPG` in orderer order. -/
theorem C8_witness :
    copyList c8Ordered 1 =
      [([48, 48, 48, 48, 48, 48, 48, 49, 46, 74, 80, 71],
        ⟨4, 100, 1, some ⟨2020, 1, 1, 0, 0, 1⟩, 11, [46, 74, 80, 71]⟩),
       ([48, 48, 48, 48, 48, 48, 48, 50, 46, 74, 80, 71],
        ⟨4, 100, 3, some ⟨2020, 1, 1, 0, 0, 2⟩, 10, [46, 74, 80, 71]⟩),
       ([48, 48, 48, 48, 48, 48, 48, 51, 46, 74, 80, 71],
        ⟨4, 100, 2, some ⟨2020, 1, 1, 0, 0, 3⟩, 12, [46, 74, 80, 71]⟩)] ∧
    ((copyList c8Ordered 1).length = c8Ordered.length ∧
      ∀ k i, c8Ordered[k]? = some i →
        (copyList c8Ordered 1)[k]? = some (fmtPad 8 (k + 1) ++ i.ext, i)) :=
  ⟨by decide,
    C8_copy_engine_names ⟨0, c8Images, 4, none, none, 33⟩ [] [71] 1
      ⟨1, c8Images, 4, none, none, 33⟩ (copyList c8Ordered 1) [destName [71] 1] c8Ordered
      (by decide) (by decide)⟩

/-! ## Correctness of the orderer (`sortname` / `sorted_images`) -/

theorem lexLt_cons_same (c : Nat) (xs ys : List Nat) :
    lexLt (c :: xs) (c :: ys) = true ↔ lexLt xs ys = true := by
  rw [lexLt_cons]
  simp

/-- Comparing two `sortname`-shaped strings sharing the prefix `P`:
the equal-width segments `s1`/`s2` decide, ties fall through the `_`
separator to `q1`/`q2`. -/
theorem lexLt_tail_compare (P s1 s2 q1 q2 : List Nat) (hlen : s1.length = s2.length) :
    (lexLt (P ++ s1 ++ [95] ++ q1) (P ++ s2 ++ [95] ++ q2) = true) ↔
      (lexLt s1 s2 = true ∨ (s1 = s2 ∧ lexLt q1 q2 = true)) := by
  have e1 : P ++ s1 ++ [95] ++ q1 = P ++ (s1 ++ (95 :: q1)) := by
    simp [List.append_assoc]
  have e2 : P ++ s2 ++ [95] ++ q2 = P ++ (s2 ++ (95 :: q2)) := by
    simp [List.append_assoc]
  rw [e1, e2, lexLt_append_same, lexLt_append _ _ hlen, lexLt_cons_same]

/-- An image of the session with a capture time in the ranges the
parser guarantees: the regex yields a 4-digit sequence number, and
EXIF years lie in `1000..9999`. -/
def GoodImage (i : TLImage) (ti : DateTime) : Prop :=
  i.when = some ti ∧ ti.Valid ∧ 1000 ≤ ti.year ∧ i.seq < 10000

instance (i : TLImage) (ti : DateTime) : Decidable (GoodImage i ti) := by
  unfold GoodImage
  infer_instance

theorem sortname_eq {i : TLImage} {ti : DateTime} (h : i.when = some ti) :
    i.sortname = some (decDigits i.group ++ [95] ++ fmtPad 3 i.folder ++ [95] ++ ti.stamp ++
      [95] ++ fmtPad 4 i.seq) := by
  unfold TLImage.sortname
  rw [h]
  rfl

/-- Within one session and parent folder, the `sortname` string
comparison is exactly: chronological capture time, then sequence
number. -/
theorem sortname_lt_iff {a b : TLImage} {ta tb : DateTime} {ka kb : List Nat}
    (hga : GoodImage a ta) (hgb : GoodImage b tb)
    (hgroup : a.group = b.group) (hfolder : a.folder = b.folder)
    (hka : a.sortname = some ka) (hkb : b.sortname = some kb) :
    lexLt ka kb = true ↔ (ta.key < tb.key ∨ (ta.key = tb.key ∧ a.seq < b.seq)) := by
  obtain ⟨hwa, hva, hya, hsa⟩ := hga
  obtain ⟨hwb, hvb, hyb, hsb⟩ := hgb
  rw [sortname_eq hwa] at hka
  rw [sortname_eq hwb] at hkb
  injection hka with hka
  injection hkb with hkb
  subst hka
  subst hkb
  have hy2a : ta.year < 10000 := by
    obtain ⟨-, h9, -⟩ := hva
    omega
  have hy2b : tb.year < 10000 := by
    obtain ⟨-, h9, -⟩ := hvb
    omega
  rw [DateTime.stamp_eq_padNum ta hva hya hy2a, DateTime.stamp_eq_padNum tb hvb hyb hy2b]
  rw [fmtPad_eq_padNum a.seq 4 (by omega) (by norm_num; omega)]
  rw [fmtPad_eq_padNum b.seq 4 (by omega) (by norm_num; omega)]
  rw [← hgroup, ← hfolder]
  have h14a : ta.key < 10 ^ 14 := DateTime.key_lt ta hva hy2a
  have h14b : tb.key < 10 ^ 14 := DateTime.key_lt tb hvb hy2b
  rw [lexLt_tail_compare _ _ _ _ _ (by rw [padNum_length, padNum_length])]
  rw [padNum_lt_iff h14a h14b]
  rw [padNum_lt_iff (show a.seq < 10 ^ 4 by norm_num; omega) (show b.seq < 10 ^ 4 by norm_num; omega)]
  have hpe : padNum 14 ta.key = padNum 14 tb.key ↔ ta.key = tb.key :=
    ⟨padNum_inj h14a h14b, fun h => by rw [h]⟩
  rw [hpe]

theorem imageLe_trans (a b c : List Nat × TLImage) (h1 : imageLe a b = true)
    (h2 : imageLe b c = true) : imageLe a c = true := by
  unfold imageLe at h1 h2 ⊢
  simp only [Bool.not_eq_true'] at h1 h2
  simp only [Bool.not_eq_true']
  by_contra hca
  have hca' : lexLt c.1 a.1 = true := by
    cases hcc : lexLt c.1 a.1
    · exact absurd hcc hca
    · rfl
  rcases lexLt_trichot a.1 b.1 with hab | hab | hab
  · have := lexLt_trans hca' hab
    rw [h2] at this
    exact Bool.noConfusion this
  · rw [← hab] at h2
    rw [h2] at hca'
    exact Bool.noConfusion hca'
  · rw [h1] at hab
    exact Bool.noConfusion hab

theorem imageLe_total (a b : List Nat × TLImage) :
    imageLe a b = true ∨ imageLe b a = true := by
  unfold imageLe
  rcases lexLt_trichot a.1 b.1 with h | h | h
  · left
    rw [lexLt_asymm h]
    rfl
  · left
    rw [h, lexLt_irrefl]
    rfl
  · right
    rw [lexLt_asymm h]
    rfl

theorem keyImages_spec : ∀ (imgs : List TLImage) (keyed : List (List Nat × TLImage)),
    keyImages imgs = some keyed →
    keyed.map Prod.snd = imgs ∧ ∀ p ∈ keyed, p.2.sortname = some p.1 := by
  intro imgs
  induction imgs with
  | nil =>
    intro keyed h
    simp only [keyImages, Option.some.injEq] at h
    subst h
    simp
  | cons i rest ih =>
    intro keyed h
    unfold keyImages at h
    cases hs : i.sortname with
    | none => rw [hs] at h; simp at h
    | some k =>
      rw [hs] at h
      cases hr : keyImages rest with
      | none => rw [hr] at h; simp at h
      | some ks =>
        rw [hr] at h
        simp only [Option.some.injEq] at h
        subst h
        obtain ⟨hmap, hall⟩ := ih ks hr
        refine ⟨by simp [hmap], ?_⟩
        intro p hp
        rcases List.mem_cons.mp hp with hp' | hp'
        · subst hp'
          exact hs
        · exact hall p hp'

/-- **C4** (amended): for every session, the orderer places an image
with a strictly earlier capture time first *provided the two images
also share the parent folder* (the composite key compares
`parentFolderId` before `captureTime`), regardless of insertion
order; and for equal capture times (same session and parent folder)
the smaller sequence number comes first. -/
theorem C4_orderer_places_earlier_first (imgs out : List TLImage)
    (h : sortImages imgs = some out) (i j : Nat) (hi : i < out.length)
    (hj : j < out.length) (a b : TLImage) (ta tb : DateTime)
    (hia : out[i] = a) (hjb : out[j] = b)
    (hga : GoodImage a ta) (hgb : GoodImage b tb)
    (hgroup : a.group = b.group) (hfolder : a.folder = b.folder) :
    (ta.ltB tb = true → i < j) ∧ (ta = tb → a.seq < b.seq → i < j) := by
  unfold sortImages at h
  cases hk : keyImages imgs with
  | none => rw [hk] at h; simp at h
  | some keyed =>
    rw [hk] at h
    simp only [Option.map_some', Option.some.injEq] at h
    obtain ⟨-, hkeys⟩ := keyImages_spec imgs keyed hk
    subst h
    have hperm := stableSortB_perm imageLe keyed
    have hkeys' : ∀ p ∈ stableSortB imageLe keyed, p.2.sortname = some p.1 := by
      intro p hp
      exact hkeys p (hperm.mem_iff.mp hp)
    have hpw := pairwise_stableSortB imageLe_trans imageLe_total keyed
    rw [List.pairwise_iff_getElem] at hpw
    have hi' : i < (stableSortB imageLe keyed).length := by
      simpa using hi
    have hj' : j < (stableSortB imageLe keyed).length := by
      simpa using hj
    rw [List.getElem_map] at hia hjb
    have hpaKey : a.sortname = some ((stableSortB imageLe keyed)[i]).1 := by
      rw [← hia]
      exact hkeys' _ (List.getElem_mem _)
    have hpbKey : b.sortname = some ((stableSortB imageLe keyed)[j]).1 := by
      rw [← hjb]
      exact hkeys' _ (List.getElem_mem _)
    have main : lexLt ((stableSortB imageLe keyed)[i]).1
        ((stableSortB imageLe keyed)[j]).1 = true → i < j := by
      intro hlt
      by_contra hij
      by_cases heqij : i = j
      · subst heqij
        rw [lexLt_irrefl] at hlt
        exact Bool.noConfusion hlt
      · have hji : j < i := by omega
        have hle := hpw j i hj' hi' hji
        have hle' : lexLt ((stableSortB imageLe keyed)[i]).1
            ((stableSortB imageLe keyed)[j]).1 = false := by
          simpa [imageLe] using hle
        rw [hlt] at hle'
        exact Bool.noConfusion hle'
    have hiff := sortname_lt_iff hga hgb hgroup hfolder hpaKey hpbKey
    constructor
    · intro hltB
      apply main
      rw [hiff]
      exact Or.inl ((DateTime.ltB_iff_key hga.2.1 hgb.2.1).mp hltB)
    · intro hteq hseq
      apply main
      rw [hiff]
      exact Or.inr ⟨by rw [hteq], hseq⟩

/-- **C4** counterexample: two session-4 images in different parent
folders — the strictly earlier one (00:00:01, folder 101) is placed
*after* the later one (00:00:09, folder 100), because the sort key
compares the parent folder before the capture time.  The claim's
first conjunct asserts the earlier image always comes first. -/
theorem C4_counterexample :
    sortImages
      [⟨4, 101, 1, some ⟨2020, 1, 1, 0, 0, 1⟩, 5, [46, 74, 80, 71]⟩,
       ⟨4, 100, 2, some ⟨2020, 1, 1, 0, 0, 9⟩, 6, [46, 74, 80, 71]⟩] =
    some [⟨4, 100, 2, some ⟨2020, 1, 1, 0, 0, 9⟩, 6, [46, 74, 80, 71]⟩,
      ⟨4, 101, 1, some ⟨2020, 1, 1, 0, 0, 1⟩, 5, [46, 74, 80, 71]⟩] ∧
    DateTime.ltB ⟨2020, 1, 1, 0, 0, 1⟩ ⟨2020, 1, 1, 0, 0, 9⟩ = true := by decide

/-- Concrete same-folder session-4 image pair for the C4 witness:
`c4A` is captured one second before `c4B`. -/
def c4A : TLImage := ⟨4, 100, 3, some ⟨2020, 1, 1, 0, 0, 1⟩, 5, [46, 74, 80, 71]⟩

/-- The later image of the C4 witness pair. -/
def c4B : TLImage := ⟨4, 100, 7, some ⟨2020, 1, 1, 0, 0, 2⟩, 6, [46, 74, 80, 71]⟩

/-- Witness for C4 (amended): inserted in reverse order, the earlier
same-folder image still lands at position 0. -/
theorem C4_witness :
    (DateTime.ltB ⟨2020, 1, 1, 0, 0, 1⟩ ⟨2020, 1, 1, 0, 0, 2⟩ = true → 0 < 1) ∧
    ((⟨2020, 1, 1, 0, 0, 1⟩ : DateTime) = ⟨2020, 1, 1, 0, 0, 2⟩ → c4A.seq < c4B.seq → 0 < 1) :=
  C4_orderer_places_earlier_first [c4B, c4A] [c4A, c4B] (by decide) 0 1 (by decide) (by decide)
    c4A c4B ⟨2020, 1, 1, 0, 0, 1⟩ ⟨2020, 1, 1, 0, 0, 2⟩ rfl rfl (by decide) (by decide)
    rfl rfl

end GoproImporter
